import Mathlib

/-!
Verification of the YAML facade in `great_expectations/core/yaml_handler.py`.

The repository holds only the thin facade `YAMLHandler` over the third-party
`ruamel.yaml` engine.  The facade itself (class attribute `_handler`,
`load`, `dump`, `_dump`, `_dump_and_return_value`) is translated from the
source.  The engine (`ruamel.yaml.YAML`) is external to the repository, so
its `load`/`dump` are modelled from the spec: a safe-subset document model,
a block-style serializer with mapping indent 2, sequence indent 4 with
offset 2, flow style disabled, and a parser for that block format.
-/

/-- A Python value handed to the facade: the safe YAML subset (strings,
integers, booleans, `None`, lists, string-keyed dicts in insertion order),
plus `obj`, an arbitrary opaque Python object with no safe YAML
representation. -/
inductive PyObj where
  | str (s : String)
  | int (n : Int)
  | bool (b : Bool)
  | null
  | list (items : List PyObj)
  | dict (entries : List (String × PyObj))
  | obj (name : String)

/-- `true` exactly on dict values: `load`'s declared result type is `dict`. -/
def PyObj.isDict : PyObj → Bool
  | .dict _ => true
  | _ => false

/-- The two failure kinds the spec names: a ParseError-kind condition from
`load` on malformed YAML, and a SerializationError-kind condition from
`dump` on a value outside the safe subset. -/
inductive YamlError where
  | parseError
  | serializationError
  deriving DecidableEq

/-- Modelled from the spec: the configured `ruamel.yaml.YAML` engine object —
the constructor argument `typ` and the settings fixed in the class body of
`YAMLHandler` (`indent(mapping=2, sequence=4, offset=2)`,
`default_flow_style = False`). -/
structure YAML where
  typ : String
  mapping : Nat
  sequence : Nat
  offset : Nat
  default_flow_style : Bool
  deriving DecidableEq

/-- A caller-supplied destination argument for `dump`.  The hinted types
(`io.TextIOWrapper`, `io.StringIO`, `pathlib.Path`) are always truthy in
Python; `other b` stands for any other Python object passed despite the
hints, with truthiness `b` (e.g. `other false` for `""` or `0`). -/
inductive PyStream where
  | textIOWrapper
  | stringBuffer
  | path (p : String)
  | other (b : Bool)
  deriving DecidableEq

/-- Python truthiness of a destination object. -/
def PyStream.truthy : PyStream → Bool
  | .textIOWrapper => true
  | .stringBuffer => true
  | .path _ => true
  | .other b => b

/-! ## Decimal rendering and parsing of integer scalars -/

/-- The ASCII digit for `d < 10`. -/
def digitChar (d : Nat) : Char := Char.ofNat (48 + d)

/-- Decimal digits of `n`, most significant first; `fuel` bounds the
recursion depth (any `fuel > n` is enough). -/
def natToCharsAux : Nat → Nat → List Char
  | 0, _ => []
  | fuel + 1, n =>
    if n < 10 then [digitChar n]
    else natToCharsAux fuel (n / 10) ++ [digitChar (n % 10)]

/-- Decimal rendering of a natural number. -/
def natToChars (n : Nat) : List Char := natToCharsAux (n + 1) n

/-- Decimal rendering of an integer scalar, as the engine emits it. -/
def intToChars (n : Int) : List Char :=
  if n < 0 then '-' :: natToChars n.natAbs else natToChars n.toNat

/-- Parse an unsigned decimal numeral; `none` unless the text is one or
more digits. -/
def parseNatChars (l : List Char) : Option Nat :=
  if l = [] then none
  else if l.all Char.isDigit then
    some (l.foldl (fun n c => n * 10 + (c.toNat - 48)) 0)
  else none

/-- Parse an optionally `-`-signed decimal numeral. -/
def parseIntChars (l : List Char) : Option Int :=
  match l with
  | [] => none
  | c :: rest =>
    if c = '-' then
      match parseNatChars rest with
      | some m => some (-(m : Int))
      | none => none
    else
      match parseNatChars (c :: rest) with
      | some m => some ((m : Int))
      | none => none

/-! ## Plain scalars and the safe subset -/

/-- A character allowed after the first in a plain (unquoted) scalar or key
of the model: letters, digits, `_`. -/
def plainChar (c : Char) : Bool := c.isAlphanum || c = '_'

/-- A plain string scalar or mapping key: nonempty, a letter first, then
letters/digits/underscores, and not one of the scalar keywords.  Such text
round-trips unquoted: it cannot be read back as a number, boolean, null,
flow collection, block marker, or key separator. -/
def plainStr (s : String) : Bool :=
  match s.data with
  | [] => false
  | c :: cs =>
    c.isAlpha && cs.all plainChar &&
      !(decide (s = "true")) && !(decide (s = "false")) && !(decide (s = "null"))

mutual

/-- The serializable safe subset: everything except an opaque object
(anywhere inside the value). -/
def safeDoc : PyObj → Bool
  | .str _ => true
  | .int _ => true
  | .bool _ => true
  | .null => true
  | .list items => safeList items
  | .dict es => safeDict es
  | .obj _ => false

/-- `safeDoc` on every element. -/
def safeList : List PyObj → Bool
  | [] => true
  | x :: xs => safeDoc x && safeList xs

/-- `safeDoc` on every entry value. -/
def safeDict : List (String × PyObj) → Bool
  | [] => true
  | (_, v) :: es => safeDoc v && safeDict es

end

mutual

/-- A document of plain scalars, sequences and mappings: every string
scalar and every key is `plainStr`, and no opaque object occurs. -/
def plainDoc : PyObj → Bool
  | .str s => plainStr s
  | .int _ => true
  | .bool _ => true
  | .null => true
  | .list items => plainList items
  | .dict es => plainDict es
  | .obj _ => false

/-- `plainDoc` on every element. -/
def plainList : List PyObj → Bool
  | [] => true
  | x :: xs => plainDoc x && plainList xs

/-- `plainStr` keys and `plainDoc` values. -/
def plainDict : List (String × PyObj) → Bool
  | [] => true
  | (k, v) :: es => plainStr k && plainDoc v && plainDict es

end

mutual

/-- No empty sequence and no empty mapping anywhere inside: exactly the
documents the engine renders with no flow collection at all (empty
collections are the one case block style cannot express). -/
def solidDoc : PyObj → Bool
  | .list [] => false
  | .dict [] => false
  | .list items => solidList items
  | .dict es => solidDict es
  | _ => true

/-- `solidDoc` on every element. -/
def solidList : List PyObj → Bool
  | [] => true
  | x :: xs => solidDoc x && solidList xs

/-- `solidDoc` on every entry value. -/
def solidDict : List (String × PyObj) → Bool
  | [] => true
  | (_, v) :: es => solidDoc v && solidDict es

end

/-! ## The block-style serializer (modelled from the spec)

Lines are built as `(indent, content)` pairs and flattened to text at the
end.  The indent arithmetic is the fixed construction-time configuration:
mapping indent 2, sequence indent 4 with offset 2 (a dash sits 2 columns
past its parent key, its block content 2 columns past the dash), flow style
disabled everywhere except the unavoidable `[]`/`{}` for empty
collections. -/

/-- A physical output line: leading-space count and the rest of the line. -/
abbrev MLine := Nat × List Char

/-- The inline (single-token) rendering of a value, when block form is not
needed: scalars, and the flow form of empty collections. -/
def inlineRen : PyObj → Option (List Char)
  | .str s => some s.data
  | .int n => some (intToChars n)
  | .bool true => some ['t', 'r', 'u', 'e']
  | .bool false => some ['f', 'a', 'l', 's', 'e']
  | .null => some ['n', 'u', 'l', 'l']
  | .list [] => some ['[', ']']
  | .dict [] => some ['{', '}']
  | .list (_ :: _) => none
  | .dict (_ :: _) => none
  | .obj _ => none

mutual

/-- Modelled from the spec: the lines of a nonempty collection rendered in
block style starting at column `i`. -/
def renBlock : PyObj → Nat → List MLine
  | .list items, i => renSeq items i
  | .dict es, i => renMap es i
  | v, i => [(i, (inlineRen v).getD [])]

/-- Sequence items: a dash line per item, inline scalars on the dash line,
nested collections in block form 2 columns past the dash. -/
def renSeq : List PyObj → Nat → List MLine
  | [], _ => []
  | x :: xs, i =>
    (match inlineRen x with
     | some c => [(i, '-' :: ' ' :: c)]
     | none => (i, ['-']) :: renBlock x (i + 2)) ++ renSeq xs i

/-- Mapping entries: `key: value` for inline values, `key:` followed by the
value in block form 2 columns deeper otherwise. -/
def renMap : List (String × PyObj) → Nat → List MLine
  | [], _ => []
  | (k, v) :: es, i =>
    (match inlineRen v with
     | some c => [(i, k.data ++ ':' :: ' ' :: c)]
     | none => (i, k.data ++ [':']) :: renBlock v (i + 2)) ++ renMap es i

end

/-- The lines of a whole document: inline documents occupy one line at
column 0, block documents start at column 0. -/
def docLines (v : PyObj) : List MLine :=
  match inlineRen v with
  | some c => [(0, c)]
  | none => renBlock v 0

/-- `n` spaces. -/
def sp (n : Nat) : List Char := List.replicate n ' '

/-- Flatten a measured line back to its physical characters. -/
def flattenLine (p : MLine) : List Char := sp p.1 ++ p.2

/-- Join lines into a character stream, a newline terminating every line. -/
def joinChars (ls : List (List Char)) : List Char :=
  ls.foldr (fun l acc => l ++ '\n' :: acc) []

/-- The serialized text of a document, as a character list. -/
def dumpChars (v : PyObj) : List Char :=
  joinChars ((docLines v).map flattenLine)

/-! ## The safe parser (modelled from the spec) -/

/-- Split a character stream at newlines.  A terminating newline yields a
final empty line. -/
def splitLines : List Char → List (List Char)
  | [] => [[]]
  | c :: cs =>
    if c = '\n' then [] :: splitLines cs
    else
      match splitLines cs with
      | [] => [[c]]
      | l :: ls => (c :: l) :: ls

/-- Measure a physical line: count of leading spaces, and the rest. -/
def splitSpaces : List Char → MLine
  | [] => (0, [])
  | c :: cs =>
    if c = ' ' then
      let p := splitSpaces cs
      (p.1 + 1, p.2)
    else (0, c :: cs)

/-- Split a mapping line at its key separator: the first `':'` that is
followed by a space (inline value after it) or ends the line (block value
below).  `none` when the line has no such separator. -/
def splitKey : List Char → Option (List Char × Option (List Char))
  | [] => none
  | c :: rest =>
    if c = ':' ∧ rest = [] then some ([], none)
    else if c = ':' ∧ rest.head? = some ' ' then some ([], some rest.tail)
    else (splitKey rest).map (fun p => (c :: p.1, p.2))

/-- Does a line's content start a sequence item (`-` alone or `- `)? -/
def isDashLine (c : List Char) : Bool :=
  match c with
  | '-' :: rest => rest = [] || rest.head? = some ' '
  | _ => false

/-- Parse an inline value: empty (null), the flow forms `[]`/`{}` of empty
collections (any other flow opener is malformed — an unterminated or
non-safe flow collection), the scalar keywords, a decimal integer, or else
a plain string scalar. -/
def parseInlineVal (c : List Char) : Option PyObj :=
  if c = [] then some .null
  else if c = ['[', ']'] then some (.list [])
  else if c = ['{', '}'] then some (.dict [])
  else if c.head? = some '[' then none
  else if c.head? = some '{' then none
  else if c = ['t', 'r', 'u', 'e'] then some (.bool true)
  else if c = ['f', 'a', 'l', 's', 'e'] then some (.bool false)
  else if c = ['n', 'u', 'l', 'l'] then some .null
  else
    match parseIntChars c with
    | some n => some (.int n)
    | none => some (.str (String.mk c))

mutual

/-- Parse one block node whose first line sits exactly at column `i`;
returns the node and the unconsumed lines.  `fuel` bounds the recursion. -/
def parseBlock : Nat → Nat → List MLine → Option (PyObj × List MLine)
  | 0, _, _ => none
  | fuel + 1, i, lines =>
    match lines with
    | [] => none
    | (j, c) :: rest =>
      if j = i then
        if isDashLine c then
          match parseSeqItems fuel i lines with
          | some (items, rem) => some (.list items, rem)
          | none => none
        else
          match splitKey c with
          | some _ =>
            match parseMapEntries fuel i lines with
            | some (es, rem) => some (.dict es, rem)
            | none => none
          | none =>
            match parseInlineVal c with
            | some v => some (v, rest)
            | none => none
      else none

/-- Parse successive sequence items at dash column `i`, stopping before the
first line that is not a dash line at that column.  A dash alone starts a
nested block item two columns deeper; `- ` is followed by an inline item on
the dash line. -/
def parseSeqItems : Nat → Nat → List MLine → Option (List PyObj × List MLine)
  | 0, _, _ => none
  | fuel + 1, i, lines =>
    match lines with
    | [] => some ([], [])
    | (j, c) :: rest =>
      if j = i ∧ isDashLine c then
        if c.tail = [] then
          match parseBlock fuel (i + 2) rest with
          | some (v, rem) =>
            match parseSeqItems fuel i rem with
            | some (vs, rem2) => some (v :: vs, rem2)
            | none => none
          | none => none
        else
          match parseInlineVal c.tail.tail with
          | some v =>
            match parseSeqItems fuel i rest with
            | some (vs, rem2) => some (v :: vs, rem2)
            | none => none
          | none => none
      else some ([], lines)

/-- Parse successive mapping entries at column `i`, stopping before the
first line that is not a `key:`-shaped line at that column.  A malformed
entry value fails the whole parse — no partial mapping survives. -/
def parseMapEntries : Nat → Nat → List MLine → Option (List (String × PyObj) × List MLine)
  | 0, _, _ => none
  | fuel + 1, i, lines =>
    match lines with
    | [] => some ([], [])
    | (j, c) :: rest =>
      if j = i then
        match splitKey c with
        | some (k, some r) =>
          match parseInlineVal r with
          | some v =>
            match parseMapEntries fuel i rest with
            | some (es, rem) => some ((String.mk k, v) :: es, rem)
            | none => none
          | none => none
        | some (k, none) =>
          match parseBlock fuel (i + 2) rest with
          | some (v, rem) =>
            match parseMapEntries fuel i rem with
            | some (es, rem2) => some ((String.mk k, v) :: es, rem2)
            | none => none
          | none => none
        | none => some ([], lines)
      else some ([], lines)

end

/-- Parse a whole document: measure the physical lines, parse one block
node at column 0, and require that nothing but the final empty line (from
the terminating newline) remains. -/
def docParse (ms : List MLine) : Option PyObj :=
  match parseBlock (2 * ms.length + 2) 0 ms with
  | some (v, rem) => if rem = [] ∨ rem = [(0, [])] then some v else none
  | none => none

/-! ## The engine operations (modelled from the spec) -/

/-- Modelled from the spec: `ruamel.yaml.YAML.load` in safe mode — parse
the text into the safe subset; a ParseError-kind condition on malformed
input, never a partial result. -/
def YAML.load (_e : YAML) (stream : String) : Except YamlError PyObj :=
  match docParse ((splitLines stream.data).map splitSpaces) with
  | some v => .ok v
  | none => .error .parseError

/-- Modelled from the spec: serialize a document to text under the fixed
construction-time settings.  A value outside the safe subset fails with a
SerializationError-kind condition; per-call keyword arguments carry no
formatting reconfiguration (the settings are fixed at construction). -/
def YAML.dumpText (_e : YAML) (data : PyObj) (_kwargs : List (String × String)) :
    Except YamlError String :=
  if safeDoc data then .ok (String.mk (dumpChars data)) else .error .serializationError

/-- Modelled from the spec: `ruamel.yaml.YAML.dump` into a caller-supplied
destination whose current content is `σ`: the serialized text is written
into the destination in place. -/
def YAML.dump (e : YAML) (data : PyObj) (_stream : PyStream) (σ : String)
    (kwargs : List (String × String)) : Except YamlError String :=
  match YAML.dumpText e data kwargs with
  | .ok t => .ok (σ ++ t)
  | .error err => .error err

/-! ## The facade, translated from `yaml_handler.py`

A destination stream's mutable content is threaded explicitly: a call takes
the destination's prior content `σ` and returns the pair (returned value,
destination content after the call). -/

/-- `YAMLHandler._handler`: the class-level engine instance,
`YAML(typ="safe")` with `indent(mapping=2, sequence=4, offset=2)` and
`default_flow_style = False`. -/
def YAMLHandler._handler : YAML :=
  { typ := "safe", mapping := 2, sequence := 4, offset := 2, default_flow_style := false }

/-- `YAMLHandler.load`: delegate to `_handler.load(stream=stream)` — no
catching, no translation of failures. -/
def YAMLHandler.load (stream : String) : Except YamlError PyObj :=
  YAML.load YAMLHandler._handler stream

/-- `YAMLHandler._dump`: an input stream has been provided — modify it in
place via `_handler.dump` and return `None`. -/
def YAMLHandler._dump (data : PyObj) (stream : PyStream) (σ : String)
    (kwargs : List (String × String)) : Except YamlError (Option String × String) :=
  match YAML.dump YAMLHandler._handler data stream σ kwargs with
  | .ok σ2 => .ok (none, σ2)
  | .error e => .error e

/-- `YAMLHandler._dump_and_return_value`: no input stream was provided —
allocate a fresh `io.StringIO` (content `""`), dump into it, and return its
`getvalue()`; the write into the empty buffer makes its content exactly the
serialized text.  The caller-visible destination content `σ` is untouched. -/
def YAMLHandler._dump_and_return_value (data : PyObj) (σ : String)
    (kwargs : List (String × String)) : Except YamlError (Option String × String) :=
  match YAML.dumpText YAMLHandler._handler data kwargs with
  | .ok t => .ok (some t, σ)
  | .error e => .error e

/-- `YAMLHandler.dump`: `if stream:` — Python truthiness of the argument,
not a `None` test — dispatches between writing in place and returning a
string. -/
def YAMLHandler.dump (data : PyObj) (stream : Option PyStream) (σ : String)
    (kwargs : List (String × String)) : Except YamlError (Option String × String) :=
  match stream with
  | some s =>
    if s.truthy then YAMLHandler._dump data s σ kwargs
    else YAMLHandler._dump_and_return_value data σ kwargs
  | none => YAMLHandler._dump_and_return_value data σ kwargs

/-- One facade call with its arguments, for stating that no call sequence
reconfigures the engine. -/
inductive FacadeCall where
  | loadC (stream : String)
  | dumpC (data : PyObj) (stream : Option PyStream) (σ : String)
      (kwargs : List (String × String))

/-- The class attribute `_handler` after one facade call: neither method
body assigns to `_handler` nor calls `indent()` or touches
`default_flow_style` — the attribute read in the bodies is the one fixed in
the class body. -/
def engineAfter (st : YAML) : FacadeCall → YAML :=
  fun _ => st

/-! ## Character and string basics -/

theorem alpha_not_digit (c : Char) (h : c.isAlpha = true) : c.isDigit = false := by
  simp only [Char.isAlpha, Char.isUpper, Char.isLower, Char.isDigit, Bool.or_eq_true,
    Bool.and_eq_true, decide_eq_true_eq, UInt32.le_def, BitVec.le_def] at h ⊢
  have e48 : (UInt32.toBitVec 48).toNat = 48 := rfl
  have e57 : (UInt32.toBitVec 57).toNat = 57 := rfl
  have e65 : (UInt32.toBitVec 65).toNat = 65 := rfl
  have e90 : (UInt32.toBitVec 90).toNat = 90 := rfl
  have e97 : (UInt32.toBitVec 97).toNat = 97 := rfl
  have e122 : (UInt32.toBitVec 122).toNat = 122 := rfl
  rw [Bool.and_eq_false_iff]
  simp only [e48, e57, e65, e90, e97, e122, decide_eq_false_iff_not, not_le] at *
  omega

theorem String.mk_data (s : String) : String.mk s.data = s := by
  cases s
  rfl

theorem String.data_injective {s t : String} (h : s.data = t.data) : s = t := by
  cases s
  cases t
  simp_all

/-! ## Decimal scalars round-trip -/

theorem digitChar_isDigit (d : Nat) (h : d < 10) : (digitChar d).isDigit = true := by
  interval_cases d <;> decide

theorem digitChar_toNat (d : Nat) (h : d < 10) : (digitChar d).toNat - 48 = d := by
  interval_cases d <;> decide

theorem natToCharsAux_ne_nil (fuel n : Nat) (h : n < fuel) : natToCharsAux fuel n ≠ [] := by
  induction fuel generalizing n with
  | zero => omega
  | succ f ih =>
    rw [natToCharsAux]
    by_cases h10 : n < 10
    · simp [h10]
    · simp only [if_neg h10]
      simp

theorem natToCharsAux_digits (fuel n : Nat) (h : n < fuel) :
    ∀ c ∈ natToCharsAux fuel n, c.isDigit = true := by
  induction fuel generalizing n with
  | zero => omega
  | succ f ih =>
    rw [natToCharsAux]
    by_cases h10 : n < 10
    · simp only [if_pos h10, List.mem_singleton]
      rintro c rfl
      exact digitChar_isDigit n h10
    · simp only [if_neg h10, List.mem_append, List.mem_singleton]
      rintro c (hc | rfl)
      · exact ih (n / 10) (by omega) c hc
      · exact digitChar_isDigit (n % 10) (Nat.mod_lt _ (by omega))

theorem natToCharsAux_foldl (fuel n : Nat) (h : n < fuel) :
    (natToCharsAux fuel n).foldl (fun a c => a * 10 + (c.toNat - 48)) 0 = n := by
  induction fuel generalizing n with
  | zero => omega
  | succ f ih =>
    rw [natToCharsAux]
    by_cases h10 : n < 10
    · simp only [if_pos h10, List.foldl_cons, List.foldl_nil]
      rw [digitChar_toNat n h10]
      omega
    · simp only [if_neg h10, List.foldl_append, List.foldl_cons, List.foldl_nil]
      rw [ih (n / 10) (by omega), digitChar_toNat (n % 10) (Nat.mod_lt _ (by omega))]
      omega

theorem natToChars_ne_nil (n : Nat) : natToChars n ≠ [] :=
  natToCharsAux_ne_nil (n + 1) n (by omega)

theorem natToChars_digits (n : Nat) : ∀ c ∈ natToChars n, c.isDigit = true :=
  natToCharsAux_digits (n + 1) n (by omega)

theorem natToChars_foldl (n : Nat) :
    (natToChars n).foldl (fun a c => a * 10 + (c.toNat - 48)) 0 = n :=
  natToCharsAux_foldl (n + 1) n (by omega)

theorem parseNat_natToChars (n : Nat) : parseNatChars (natToChars n) = some n := by
  rw [parseNatChars, if_neg (natToChars_ne_nil n)]
  rw [if_pos (List.all_eq_true.mpr (natToChars_digits n))]
  rw [natToChars_foldl]

theorem natToChars_head_digit (n : Nat) (c : Char) (t : List Char)
    (h : natToChars n = c :: t) : c.isDigit = true :=
  natToChars_digits n c (by rw [h]; exact List.mem_cons_self c t)

theorem parseInt_intToChars (n : Int) : parseIntChars (intToChars n) = some n := by
  rw [intToChars]
  by_cases hn : n < 0
  · rw [if_pos hn, parseIntChars, if_pos rfl, parseNat_natToChars]
    show some (-(n.natAbs : Int)) = some n
    congr 1
    omega
  · rw [if_neg hn]
    obtain ⟨c, t, hct⟩ : ∃ c t, natToChars n.toNat = c :: t := by
      cases h : natToChars n.toNat with
      | nil => exact absurd h (natToChars_ne_nil _)
      | cons c t => exact ⟨c, t, rfl⟩
    have hd : c.isDigit = true := natToChars_head_digit _ _ _ hct
    have hcm : c ≠ '-' := by
      rintro rfl
      exact absurd hd (by decide)
    rw [hct, parseIntChars, if_neg hcm, ← hct, parseNat_natToChars]
    show some ((n.toNat : Int)) = some n
    congr 1
    omega

/-! ## Character classes of plain text -/

theorem isAlpha_ne (a : Char) (h : a.isAlpha = true) :
    a ≠ '-' ∧ a ≠ ' ' ∧ a ≠ ':' ∧ a ≠ '[' ∧ a ≠ '{' ∧ a ≠ '\n' := by
  refine ⟨?_, ?_, ?_, ?_, ?_, ?_⟩ <;> (rintro rfl; exact absurd h (by decide))

theorem plainChar_ne (a : Char) (h : plainChar a = true) :
    a ≠ ':' ∧ a ≠ '\n' ∧ a ≠ ' ' ∧ a ≠ '[' ∧ a ≠ '{' := by
  refine ⟨?_, ?_, ?_, ?_, ?_⟩ <;> (rintro rfl; exact absurd h (by decide))

theorem isDigit_ne (a : Char) (h : a.isDigit = true) :
    a ≠ '-' ∧ a ≠ ' ' ∧ a ≠ ':' ∧ a ≠ '[' ∧ a ≠ '{' ∧ a ≠ '\n' ∧
      a ≠ 't' ∧ a ≠ 'f' ∧ a ≠ 'n' := by
  refine ⟨?_, ?_, ?_, ?_, ?_, ?_, ?_, ?_, ?_⟩ <;> (rintro rfl; exact absurd h (by decide))

theorem isAlpha_plainChar (a : Char) (h : a.isAlpha = true) : plainChar a = true := by
  rw [plainChar, Char.isAlphanum, h]
  rfl

/-- Unpack `plainStr`. -/
theorem plainStr_spec {s : String} (h : plainStr s = true) :
    ∃ a cs, s.data = a :: cs ∧ a.isAlpha = true ∧ cs.all plainChar = true ∧
      s ≠ "true" ∧ s ≠ "false" ∧ s ≠ "null" := by
  rw [plainStr] at h
  cases hs : s.data with
  | nil => rw [hs] at h; exact absurd h (by simp)
  | cons a cs =>
    rw [hs] at h
    simp only [Bool.and_eq_true, Bool.not_eq_true', decide_eq_false_iff_not] at h
    exact ⟨a, cs, rfl, h.1.1.1.1, h.1.1.1.2, h.1.1.2, h.1.2, h.2⟩

/-- Every character of the decimal form of an integer is a digit or the
leading minus sign. -/
theorem intToChars_chars (n : Int) :
    ∀ c ∈ intToChars n, c.isDigit = true ∨ c = '-' := by
  intro c hc
  rw [intToChars] at hc
  by_cases hn : n < 0
  · rw [if_pos hn] at hc
    rcases List.mem_cons.mp hc with rfl | hc
    · exact Or.inr rfl
    · exact Or.inl (natToChars_digits _ c hc)
  · rw [if_neg hn] at hc
    exact Or.inl (natToChars_digits _ c hc)

theorem intToChars_ne_nil (n : Int) : intToChars n ≠ [] := by
  rw [intToChars]
  by_cases hn : n < 0
  · rw [if_pos hn]; simp
  · rw [if_neg hn]; exact natToChars_ne_nil _

/-! ## The inline renderings parse back -/

theorem parseInlineVal_str {s : String} (h : plainStr s = true) :
    parseInlineVal s.data = some (.str s) := by
  obtain ⟨a, cs, hs, ha, hcs, ht, hf, hn⟩ := plainStr_spec h
  obtain ⟨hm, hsp, hco, hbr, hbc, hnl⟩ := isAlpha_ne a ha
  have hd : a.isDigit = false := alpha_not_digit a ha
  have hdata : ∀ t : String, s ≠ t → s.data ≠ t.data := by
    intro t hst hdt
    exact hst (String.data_injective hdt)
  rw [parseInlineVal, hs]
  rw [if_neg (by simp)]
  rw [if_neg (by simp [hbr])]
  rw [if_neg (by simp [hbc])]
  rw [if_neg (by simp [hbr])]
  rw [if_neg (by simp [hbc])]
  rw [if_neg (by rw [← hs]; exact hdata "true" ht)]
  rw [if_neg (by rw [← hs]; exact hdata "false" hf)]
  rw [if_neg (by rw [← hs]; exact hdata "null" hn)]
  have hpn : parseNatChars (a :: cs) = none := by
    rw [parseNatChars, if_neg (by simp)]
    rw [if_neg (by simp [hd])]
  rw [parseIntChars, if_neg hm, hpn, ← hs, String.mk_data]

theorem parseInlineVal_int (n : Int) : parseInlineVal (intToChars n) = some (.int n) := by
  obtain ⟨a, t, hat⟩ : ∃ a t, intToChars n = a :: t := by
    cases h : intToChars n with
    | nil => exact absurd h (intToChars_ne_nil n)
    | cons a t => exact ⟨a, t, rfl⟩
  have hcls : a.isDigit = true ∨ a = '-' :=
    intToChars_chars n a (by rw [hat]; exact List.mem_cons_self a t)
  have hne : a ≠ '[' ∧ a ≠ '{' ∧ a ≠ 't' ∧ a ≠ 'f' ∧ a ≠ 'n' := by
    rcases hcls with hd | rfl
    · obtain ⟨_, _, _, h4, h5, _, h7, h8, h9⟩ := isDigit_ne a hd
      exact ⟨h4, h5, h7, h8, h9⟩
    · refine ⟨?_, ?_, ?_, ?_, ?_⟩ <;> decide
  rw [parseInlineVal, hat]
  rw [if_neg (by simp)]
  rw [if_neg (by simp [hne.1])]
  rw [if_neg (by simp [hne.2.1])]
  rw [if_neg (by simp [hne.1])]
  rw [if_neg (by simp [hne.2.1])]
  rw [if_neg (by simp [hne.2.2.1])]
  rw [if_neg (by simp [hne.2.2.2.1])]
  rw [if_neg (by simp [hne.2.2.2.2])]
  rw [← hat, parseInt_intToChars]

/-- Every inline rendering of a plain value parses back to that value. -/
theorem parseInlineVal_ren {v : PyObj} {c : List Char} (hp : plainDoc v = true)
    (hr : inlineRen v = some c) : parseInlineVal c = some v := by
  cases v with
  | str s =>
    rw [inlineRen, Option.some_inj] at hr
    rw [← hr]
    exact parseInlineVal_str (by rwa [plainDoc] at hp)
  | int n =>
    rw [inlineRen, Option.some_inj] at hr
    rw [← hr]
    exact parseInlineVal_int n
  | bool b =>
    cases b <;> (rw [inlineRen, Option.some_inj] at hr; rw [← hr]; rfl)
  | null =>
    rw [inlineRen, Option.some_inj] at hr
    rw [← hr]
    rfl
  | list items =>
    cases items with
    | nil => rw [inlineRen, Option.some_inj] at hr; rw [← hr]; rfl
    | cons x xs => exact absurd hr (by rw [inlineRen]; simp)
  | dict es =>
    cases es with
    | nil => rw [inlineRen, Option.some_inj] at hr; rw [← hr]; rfl
    | cons e es => exact absurd hr (by rw [inlineRen]; simp)
  | obj o => exact absurd hr (by rw [inlineRen]; simp)

/-! ## Shapes of inline renderings -/

theorem inlineRen_head {v : PyObj} {c : List Char} (hp : plainDoc v = true)
    (hr : inlineRen v = some c) :
    ∃ a t, c = a :: t ∧ a ≠ ' ' := by
  cases v with
  | str s =>
    rw [inlineRen, Option.some_inj] at hr
    obtain ⟨a, cs, hs, ha, -⟩ := plainStr_spec (by rwa [plainDoc] at hp)
    exact ⟨a, cs, by rw [← hr, hs], (isAlpha_ne a ha).2.1⟩
  | int n =>
    rw [inlineRen, Option.some_inj] at hr
    obtain ⟨a, t, hat⟩ : ∃ a t, intToChars n = a :: t := by
      cases h : intToChars n with
      | nil => exact absurd h (intToChars_ne_nil n)
      | cons a t => exact ⟨a, t, rfl⟩
    refine ⟨a, t, by rw [← hr, hat], ?_⟩
    rcases intToChars_chars n a (by rw [hat]; exact List.mem_cons_self a t) with hd | rfl
    · exact (isDigit_ne a hd).2.1
    · decide
  | bool b => cases b <;> (rw [inlineRen, Option.some_inj] at hr; exact ⟨_, _, hr.symm, by decide⟩)
  | null => rw [inlineRen, Option.some_inj] at hr; exact ⟨_, _, hr.symm, by decide⟩
  | list items =>
    cases items with
    | nil => rw [inlineRen, Option.some_inj] at hr; exact ⟨_, _, hr.symm, by decide⟩
    | cons x xs => exact absurd hr (by rw [inlineRen]; simp)
  | dict es =>
    cases es with
    | nil => rw [inlineRen, Option.some_inj] at hr; exact ⟨_, _, hr.symm, by decide⟩
    | cons e es => exact absurd hr (by rw [inlineRen]; simp)
  | obj o => exact absurd hr (by rw [inlineRen]; simp)

theorem inlineRen_no_colon {v : PyObj} {c : List Char} (hp : plainDoc v = true)
    (hr : inlineRen v = some c) : ∀ ch ∈ c, ch ≠ ':' := by
  cases v with
  | str s =>
    rw [inlineRen, Option.some_inj] at hr
    obtain ⟨a, cs, hs, ha, hcs, -⟩ := plainStr_spec (by rwa [plainDoc] at hp)
    intro ch hch
    rw [← hr, hs] at hch
    rcases List.mem_cons.mp hch with rfl | hch
    · exact (isAlpha_ne ch ha).2.2.1
    · exact (plainChar_ne ch (List.all_eq_true.mp hcs ch hch)).1
  | int n =>
    rw [inlineRen, Option.some_inj] at hr
    intro ch hch
    rw [← hr] at hch
    rcases intToChars_chars n ch hch with hd | rfl
    · exact (isDigit_ne ch hd).2.2.1
    · decide
  | bool b => cases b <;> (rw [inlineRen, Option.some_inj] at hr; rw [← hr]; decide)
  | null => rw [inlineRen, Option.some_inj] at hr; rw [← hr]; decide
  | list items =>
    cases items with
    | nil => rw [inlineRen, Option.some_inj] at hr; rw [← hr]; decide
    | cons x xs => exact absurd hr (by rw [inlineRen]; simp)
  | dict es =>
    cases es with
    | nil => rw [inlineRen, Option.some_inj] at hr; rw [← hr]; decide
    | cons e es => exact absurd hr (by rw [inlineRen]; simp)
  | obj o => exact absurd hr (by rw [inlineRen]; simp)

theorem inlineRen_no_newline {v : PyObj} {c : List Char} (hp : plainDoc v = true)
    (hr : inlineRen v = some c) : ∀ ch ∈ c, ch ≠ '\n' := by
  cases v with
  | str s =>
    rw [inlineRen, Option.some_inj] at hr
    obtain ⟨a, cs, hs, ha, hcs, -⟩ := plainStr_spec (by rwa [plainDoc] at hp)
    intro ch hch
    rw [← hr, hs] at hch
    rcases List.mem_cons.mp hch with rfl | hch
    · exact (isAlpha_ne ch ha).2.2.2.2.2
    · exact (plainChar_ne ch (List.all_eq_true.mp hcs ch hch)).2.1
  | int n =>
    rw [inlineRen, Option.some_inj] at hr
    intro ch hch
    rw [← hr] at hch
    rcases intToChars_chars n ch hch with hd | rfl
    · exact (isDigit_ne ch hd).2.2.2.2.2.1
    · decide
  | bool b => cases b <;> (rw [inlineRen, Option.some_inj] at hr; rw [← hr]; decide)
  | null => rw [inlineRen, Option.some_inj] at hr; rw [← hr]; decide
  | list items =>
    cases items with
    | nil => rw [inlineRen, Option.some_inj] at hr; rw [← hr]; decide
    | cons x xs => exact absurd hr (by rw [inlineRen]; simp)
  | dict es =>
    cases es with
    | nil => rw [inlineRen, Option.some_inj] at hr; rw [← hr]; decide
    | cons e es => exact absurd hr (by rw [inlineRen]; simp)
  | obj o => exact absurd hr (by rw [inlineRen]; simp)

theorem isDashLine_dash (rest : List Char) :
    isDashLine ('-' :: rest) = (rest = [] || rest.head? = some ' ') := rfl

theorem isDashLine_cons {a : Char} (t : List Char) (h : a ≠ '-') :
    isDashLine (a :: t) = false := by
  rw [isDashLine.eq_def]
  split
  · rename_i heq
    rw [List.cons.injEq] at heq
    exact absurd heq.1 h
  · rfl

theorem inlineRen_not_dash {v : PyObj} {c : List Char} (hp : plainDoc v = true)
    (hr : inlineRen v = some c) : isDashLine c = false := by
  cases v with
  | int n =>
    rw [inlineRen, Option.some_inj] at hr
    rw [← hr, intToChars]
    by_cases hn : n < 0
    · rw [if_pos hn, isDashLine_dash]
      obtain ⟨a, t, hat⟩ : ∃ a t, natToChars n.natAbs = a :: t := by
        cases h : natToChars n.natAbs with
        | nil => exact absurd h (natToChars_ne_nil _)
        | cons a t => exact ⟨a, t, rfl⟩
      have hd := natToChars_head_digit _ _ _ hat
      rw [hat]
      simp only [Bool.or_eq_false_iff]
      constructor
      · simp
      · simp only [List.head?_cons, decide_eq_false_iff_not]
        intro hsp
        rw [Option.some_inj] at hsp
        exact (isDigit_ne a hd).2.1 hsp
    · rw [if_neg hn]
      obtain ⟨a, t, hat⟩ : ∃ a t, natToChars n.toNat = a :: t := by
        cases h : natToChars n.toNat with
        | nil => exact absurd h (natToChars_ne_nil _)
        | cons a t => exact ⟨a, t, rfl⟩
      rw [hat]
      exact isDashLine_cons t (isDigit_ne a (natToChars_head_digit _ _ _ hat)).1
  | str s =>
    rw [inlineRen, Option.some_inj] at hr
    obtain ⟨a, cs, hs, ha, -⟩ := plainStr_spec (by rwa [plainDoc] at hp)
    rw [← hr, hs]
    exact isDashLine_cons cs (isAlpha_ne a ha).1
  | bool b => cases b <;> (rw [inlineRen, Option.some_inj] at hr; rw [← hr]; rfl)
  | null => rw [inlineRen, Option.some_inj] at hr; rw [← hr]; rfl
  | list items =>
    cases items with
    | nil => rw [inlineRen, Option.some_inj] at hr; rw [← hr]; rfl
    | cons x xs => exact absurd hr (by rw [inlineRen]; simp)
  | dict es =>
    cases es with
    | nil => rw [inlineRen, Option.some_inj] at hr; rw [← hr]; rfl
    | cons e es => exact absurd hr (by rw [inlineRen]; simp)
  | obj o => exact absurd hr (by rw [inlineRen]; simp)

/-! ## Key separators, indentation, physical lines -/

theorem splitKey_none {l : List Char} (h : ∀ ch ∈ l, ch ≠ ':') : splitKey l = none := by
  induction l with
  | nil => rfl
  | cons a t ih =>
    have ha := h a (List.mem_cons_self a t)
    rw [splitKey, if_neg (fun hh => ha hh.1), if_neg (fun hh => ha hh.1)]
    rw [ih (fun ch hch => h ch (List.mem_cons_of_mem a hch))]
    rfl

theorem splitKey_inline {k : List Char} (r : List Char) (h : ∀ ch ∈ k, ch ≠ ':') :
    splitKey (k ++ ':' :: ' ' :: r) = some (k, some r) := by
  induction k with
  | nil =>
    rw [List.nil_append, splitKey, if_neg (by simp), if_pos (by simp)]
    rfl
  | cons a t ih =>
    have ha := h a (List.mem_cons_self a t)
    rw [List.cons_append, splitKey, if_neg (fun hh => ha hh.1), if_neg (fun hh => ha hh.1)]
    rw [ih (fun ch hch => h ch (List.mem_cons_of_mem a hch))]
    rfl

theorem splitKey_block {k : List Char} (h : ∀ ch ∈ k, ch ≠ ':') :
    splitKey (k ++ [':']) = some (k, none) := by
  induction k with
  | nil =>
    rw [List.nil_append, splitKey, if_pos (by simp)]
  | cons a t ih =>
    have ha := h a (List.mem_cons_self a t)
    rw [List.cons_append, splitKey, if_neg (fun hh => ha hh.1), if_neg (fun hh => ha hh.1)]
    rw [ih (fun ch hch => h ch (List.mem_cons_of_mem a hch))]
    rfl

theorem sp_all_space (i : Nat) : ∀ ch ∈ sp i, ch = ' ' := by
  intro ch hch
  exact (List.eq_of_mem_replicate hch)

theorem splitSpaces_sp (i : Nat) (c : List Char) (h : ∀ a, c.head? = some a → a ≠ ' ') :
    splitSpaces (sp i ++ c) = (i, c) := by
  induction i with
  | zero =>
    rw [sp, List.replicate_zero, List.nil_append]
    cases c with
    | nil => rfl
    | cons a t =>
      rw [splitSpaces, if_neg (h a rfl)]
  | succ i ih =>
    rw [sp, List.replicate_succ, List.cons_append, splitSpaces, if_pos rfl]
    rw [sp] at ih
    rw [ih]

theorem splitLines_cons_line {l : List Char} (cs : List Char) (h : ∀ ch ∈ l, ch ≠ '\n') :
    splitLines (l ++ '\n' :: cs) = l :: splitLines cs := by
  induction l with
  | nil =>
    rw [List.nil_append, splitLines, if_pos rfl]
  | cons a t ih =>
    rw [List.cons_append, splitLines, if_neg (h a (List.mem_cons_self a t))]
    rw [ih (fun ch hch => h ch (List.mem_cons_of_mem a hch))]

theorem splitLines_joinChars {ls : List (List Char)} (h : ∀ l ∈ ls, ∀ ch ∈ l, ch ≠ '\n') :
    splitLines (joinChars ls) = ls ++ [[]] := by
  induction ls with
  | nil => rfl
  | cons l t ih =>
    rw [joinChars, List.foldr_cons]
    rw [splitLines_cons_line _ (h l (List.mem_cons_self l t))]
    rw [joinChars] at ih
    rw [ih (fun m hm => h m (List.mem_cons_of_mem l hm))]
    rfl

/-! ## Every rendered line is measurable and newline-free -/

/-- A content line that survives flattening and re-measuring: it does not
begin with a space and holds no newline. -/
def lineOK (p : MLine) : Prop :=
  (∀ a, p.2.head? = some a → a ≠ ' ') ∧ (∀ ch ∈ p.2, ch ≠ '\n')

theorem lineOK_inline {v : PyObj} {c : List Char} (hp : plainDoc v = true)
    (hr : inlineRen v = some c) (i : Nat) : lineOK (i, c) := by
  constructor
  · intro a ha
    obtain ⟨b, t, rfl, hb⟩ := inlineRen_head hp hr
    rw [List.head?_cons, Option.some_inj] at ha
    rw [ha] at hb
    exact hb
  · exact inlineRen_no_newline hp hr

theorem lineOK_dash_inline {v : PyObj} {c : List Char} (hp : plainDoc v = true)
    (hr : inlineRen v = some c) (i : Nat) : lineOK (i, '-' :: ' ' :: c) := by
  constructor
  · intro a ha
    rw [List.head?_cons, Option.some_inj] at ha
    rw [← ha]
    decide
  · intro ch hch
    rcases List.mem_cons.mp hch with rfl | hch
    · decide
    · rcases List.mem_cons.mp hch with rfl | hch
      · decide
      · exact inlineRen_no_newline hp hr ch hch

theorem lineOK_dash (i : Nat) : lineOK (i, ['-']) := by
  constructor
  · intro a ha
    rw [List.head?_cons, Option.some_inj] at ha
    rw [← ha]
    decide
  · intro ch hch
    rcases List.mem_cons.mp hch with rfl | hch
    · decide
    · simp at hch

theorem key_chars {k : String} (hk : plainStr k = true) :
    ∀ ch ∈ k.data, ch ≠ '\n' ∧ ch ≠ ':' := by
  obtain ⟨a, cs, hs, ha, hcs, -⟩ := plainStr_spec hk
  intro ch hch
  rw [hs] at hch
  rcases List.mem_cons.mp hch with rfl | hch
  · exact ⟨(isAlpha_ne ch ha).2.2.2.2.2, (isAlpha_ne ch ha).2.2.1⟩
  · have hc := List.all_eq_true.mp hcs ch hch
    exact ⟨(plainChar_ne ch hc).2.1, (plainChar_ne ch hc).1⟩

theorem key_head {k : String} (hk : plainStr k = true) {r : List Char} :
    ∀ a, (k.data ++ r).head? = some a → a ≠ ' ' := by
  obtain ⟨b, cs, hs, hb, -⟩ := plainStr_spec hk
  intro a ha
  rw [hs, List.cons_append, List.head?_cons, Option.some_inj] at ha
  rw [← ha]
  exact (isAlpha_ne b hb).2.1

theorem lineOK_key_inline {k : String} {v : PyObj} {c : List Char}
    (hk : plainStr k = true) (hp : plainDoc v = true) (hr : inlineRen v = some c)
    (i : Nat) : lineOK (i, k.data ++ ':' :: ' ' :: c) := by
  constructor
  · exact key_head hk
  · intro ch hch
    rcases List.mem_append.mp hch with hch | hch
    · exact (key_chars hk ch hch).1
    · rcases List.mem_cons.mp hch with rfl | hch
      · decide
      · rcases List.mem_cons.mp hch with rfl | hch
        · decide
        · exact inlineRen_no_newline hp hr ch hch

theorem lineOK_key_block {k : String} (hk : plainStr k = true) (i : Nat) :
    lineOK (i, k.data ++ [':']) := by
  constructor
  · exact key_head hk
  · intro ch hch
    rcases List.mem_append.mp hch with hch | hch
    · exact (key_chars hk ch hch).1
    · rcases List.mem_cons.mp hch with rfl | hch
      · decide
      · simp at hch

mutual

theorem renBlock_linesOK (v : PyObj) (i : Nat) (hp : plainDoc v = true) :
    ∀ p ∈ renBlock v i, lineOK p := by
  cases v with
  | list items =>
    rw [renBlock]
    exact renSeq_linesOK items i (by rwa [plainDoc] at hp)
  | dict es =>
    rw [renBlock]
    exact renMap_linesOK es i (by rwa [plainDoc] at hp)
  | str s =>
    intro p hp2
    simp only [renBlock, List.mem_singleton] at hp2
    rw [hp2]
    exact lineOK_inline hp rfl i
  | int n =>
    intro p hp2
    simp only [renBlock, List.mem_singleton] at hp2
    rw [hp2]
    exact lineOK_inline hp rfl i
  | bool b =>
    intro p hp2
    simp only [renBlock, List.mem_singleton] at hp2
    rw [hp2]
    cases b <;> exact lineOK_inline hp rfl i
  | null =>
    intro p hp2
    simp only [renBlock, List.mem_singleton] at hp2
    rw [hp2]
    exact lineOK_inline hp rfl i
  | obj o => exact absurd hp (by rw [plainDoc]; simp)

theorem renSeq_linesOK (items : List PyObj) (i : Nat) (hp : plainList items = true) :
    ∀ p ∈ renSeq items i, lineOK p := by
  cases items with
  | nil => intro p hp2; rw [renSeq] at hp2; simp at hp2
  | cons x xs =>
    rw [plainList, Bool.and_eq_true] at hp
    intro p hp2
    rw [renSeq, List.mem_append] at hp2
    rcases hp2 with hp2 | hp2
    · cases hix : inlineRen x with
      | some c =>
        rw [hix, List.mem_singleton] at hp2
        rw [hp2]
        exact lineOK_dash_inline hp.1 hix i
      | none =>
        rw [hix, List.mem_cons] at hp2
        rcases hp2 with rfl | hp2
        · exact lineOK_dash i
        · exact renBlock_linesOK x (i + 2) hp.1 p hp2
    · exact renSeq_linesOK xs i hp.2 p hp2

theorem renMap_linesOK (es : List (String × PyObj)) (i : Nat) (hp : plainDict es = true) :
    ∀ p ∈ renMap es i, lineOK p := by
  cases es with
  | nil => intro p hp2; rw [renMap] at hp2; simp at hp2
  | cons e es2 =>
    obtain ⟨k, v⟩ := e
    rw [plainDict, Bool.and_eq_true, Bool.and_eq_true] at hp
    intro p hp2
    rw [renMap, List.mem_append] at hp2
    rcases hp2 with hp2 | hp2
    · cases hix : inlineRen v with
      | some c =>
        rw [hix, List.mem_singleton] at hp2
        rw [hp2]
        exact lineOK_key_inline hp.1.1 hp.1.2 hix i
      | none =>
        rw [hix, List.mem_cons] at hp2
        rcases hp2 with rfl | hp2
        · exact lineOK_key_block hp.1.1 i
        · exact renBlock_linesOK v (i + 2) hp.1.2 p hp2
    · exact renMap_linesOK es2 i hp.2 p hp2

end

/-! ## Where a block parse stops -/

/-- The lines after a rendered block: the next line (if any) either sits at
a strictly smaller indent or is the empty final line, so no loop at indent
`i` consumes it. -/
def StopsAt (i : Nat) (rest : List MLine) : Prop :=
  ∀ j c, rest.head? = some (j, c) → j < i ∨ c = []

theorem StopsAt_nil (i : Nat) : StopsAt i [] := by
  intro j c h
  exact absurd h (by simp)

theorem StopsAt_mono {i i' : Nat} (hle : i ≤ i') {rest : List MLine}
    (h : StopsAt i rest) : StopsAt i' rest := by
  intro j c hh
  rcases h j c hh with hj | hc
  · exact Or.inl (by omega)
  · exact Or.inr hc

theorem StopsAt_renSeq (xs : List PyObj) (i : Nat) {rest : List MLine}
    (h : StopsAt i rest) : StopsAt (i + 2) (renSeq xs i ++ rest) := by
  cases xs with
  | nil =>
    rw [renSeq, List.nil_append]
    exact StopsAt_mono (by omega) h
  | cons x xs2 =>
    intro j c hh
    rw [renSeq] at hh
    cases hix : inlineRen x with
    | some c0 =>
      rw [hix] at hh
      simp only [List.cons_append, List.nil_append, List.append_assoc, List.head?_cons,
        Option.some_inj, Prod.mk.injEq] at hh
      obtain ⟨h1, h2⟩ := hh
      exact Or.inl (by omega)
    | none =>
      rw [hix] at hh
      simp only [List.cons_append, List.nil_append, List.append_assoc, List.head?_cons,
        Option.some_inj, Prod.mk.injEq] at hh
      obtain ⟨h1, h2⟩ := hh
      exact Or.inl (by omega)

theorem StopsAt_renMap (es : List (String × PyObj)) (i : Nat) {rest : List MLine}
    (h : StopsAt i rest) : StopsAt (i + 2) (renMap es i ++ rest) := by
  cases es with
  | nil =>
    rw [renMap, List.nil_append]
    exact StopsAt_mono (by omega) h
  | cons e es2 =>
    obtain ⟨k, v⟩ := e
    intro j c hh
    rw [renMap] at hh
    cases hix : inlineRen v with
    | some c0 =>
      rw [hix] at hh
      simp only [List.cons_append, List.nil_append, List.append_assoc, List.head?_cons,
        Option.some_inj, Prod.mk.injEq] at hh
      obtain ⟨h1, h2⟩ := hh
      exact Or.inl (by omega)
    | none =>
      rw [hix] at hh
      simp only [List.cons_append, List.nil_append, List.append_assoc, List.head?_cons,
        Option.some_inj, Prod.mk.injEq] at hh
      obtain ⟨h1, h2⟩ := hh
      exact Or.inl (by omega)

theorem parseSeqItems_stop (f i : Nat) (lines : List MLine) (h : StopsAt i lines) :
    parseSeqItems (f + 1) i lines = some ([], lines) := by
  cases lines with
  | nil => rw [parseSeqItems]
  | cons p r =>
    obtain ⟨j, c⟩ := p
    rcases h j c rfl with hj | rfl
    · rw [parseSeqItems, if_neg (fun hh => by omega)]
    · rw [parseSeqItems, if_neg (fun hh => by exact absurd hh.2 (by decide))]

theorem parseMapEntries_stop (f i : Nat) (lines : List MLine) (h : StopsAt i lines) :
    parseMapEntries (f + 1) i lines = some ([], lines) := by
  cases lines with
  | nil => rw [parseMapEntries]
  | cons p r =>
    obtain ⟨j, c⟩ := p
    rcases h j c rfl with hj | rfl
    · rw [parseMapEntries, if_neg (fun hh => by omega)]
    · rw [parseMapEntries]
      by_cases hj : j = i
      · rw [if_pos hj]
        rfl
      · rw [if_neg hj]

/-! ## One-step unfoldings of the renderers -/

theorem renSeq_cons_inline (x : PyObj) (xs : List PyObj) (i : Nat) (c0 : List Char)
    (hix : inlineRen x = some c0) :
    renSeq (x :: xs) i = (i, '-' :: ' ' :: c0) :: renSeq xs i := by
  rw [renSeq, hix]
  rfl

theorem renSeq_cons_block (x : PyObj) (xs : List PyObj) (i : Nat)
    (hix : inlineRen x = none) :
    renSeq (x :: xs) i = (i, ['-']) :: (renBlock x (i + 2) ++ renSeq xs i) := by
  rw [renSeq, hix]
  rfl

theorem renMap_cons_inline (k : String) (v : PyObj) (es : List (String × PyObj))
    (i : Nat) (c0 : List Char) (hix : inlineRen v = some c0) :
    renMap ((k, v) :: es) i = (i, k.data ++ ':' :: ' ' :: c0) :: renMap es i := by
  rw [renMap, hix]
  rfl

theorem renMap_cons_block (k : String) (v : PyObj) (es : List (String × PyObj))
    (i : Nat) (hix : inlineRen v = none) :
    renMap ((k, v) :: es) i = (i, k.data ++ [':']) :: (renBlock v (i + 2) ++ renMap es i) := by
  rw [renMap, hix]
  rfl

/-! ## The serializer's output parses back (the round-trip core) -/

mutual

theorem rtBlock (v : PyObj) (i : Nat) (rest : List MLine) (fuel : Nat)
    (hp : plainDoc v = true) (hir : inlineRen v = none)
    (hfuel : 2 * (renBlock v i).length + 2 ≤ fuel) (hstop : StopsAt i rest) :
    parseBlock fuel i (renBlock v i ++ rest) = some (v, rest) := by
  cases v with
  | str s => exact absurd hir (by rw [inlineRen]; simp)
  | int n => exact absurd hir (by rw [inlineRen]; simp)
  | bool b => cases b <;> exact absurd hir (by rw [inlineRen]; simp)
  | null => exact absurd hir (by rw [inlineRen]; simp)
  | obj o => exact absurd hp (by rw [plainDoc]; simp)
  | list items =>
    cases items with
    | nil => exact absurd hir (by rw [inlineRen]; simp)
    | cons x xs =>
      rw [renBlock] at hfuel ⊢
      obtain ⟨fl, rfl⟩ : ∃ fl, fuel = fl + 1 := ⟨fuel - 1, by omega⟩
      have hpl : plainList (x :: xs) = true := by rwa [plainDoc] at hp
      have hseq : parseSeqItems fl i (renSeq (x :: xs) i ++ rest) = some (x :: xs, rest) :=
        rtSeq (x :: xs) i rest fl hpl (by omega) hstop
      obtain ⟨c0, t, hlines, hdash⟩ :
          ∃ c0 t, renSeq (x :: xs) i ++ rest = (i, c0) :: t ∧ isDashLine c0 = true := by
        cases hix : inlineRen x with
        | some c0 =>
          refine ⟨'-' :: ' ' :: c0, renSeq xs i ++ rest, ?_, ?_⟩
          · rw [renSeq_cons_inline x xs i c0 hix, List.cons_append]
          · rw [isDashLine_dash]
            simp
        | none =>
          refine ⟨['-'], (renBlock x (i + 2) ++ renSeq xs i) ++ rest, ?_, ?_⟩
          · rw [renSeq_cons_block x xs i hix, List.cons_append]
          · decide
      rw [hlines] at hseq ⊢
      rw [parseBlock, if_pos rfl, if_pos hdash, hseq]
  | dict es =>
    cases es with
    | nil => exact absurd hir (by rw [inlineRen]; simp)
    | cons e es2 =>
      obtain ⟨k, v⟩ := e
      rw [renBlock] at hfuel ⊢
      obtain ⟨fl, rfl⟩ : ∃ fl, fuel = fl + 1 := ⟨fuel - 1, by omega⟩
      have hpd : plainDict ((k, v) :: es2) = true := by rwa [plainDoc] at hp
      have hkp : plainStr k = true := by
        rw [plainDict, Bool.and_eq_true, Bool.and_eq_true] at hpd
        exact hpd.1.1
      have hmap : parseMapEntries fl i (renMap ((k, v) :: es2) i ++ rest) =
          some ((k, v) :: es2, rest) :=
        rtMap ((k, v) :: es2) i rest fl hpd (by omega) hstop
      obtain ⟨a, cs, hkd, hka, -⟩ := plainStr_spec hkp
      have hkcol : ∀ ch ∈ k.data, ch ≠ ':' := fun ch hch => (key_chars hkp ch hch).2
      obtain ⟨c0, t, hlines, hkey, hnd⟩ :
          ∃ c0 t, renMap ((k, v) :: es2) i ++ rest = (i, c0) :: t ∧
            (∃ p, splitKey c0 = some p) ∧ isDashLine c0 = false := by
        cases hix : inlineRen v with
        | some c0 =>
          refine ⟨k.data ++ ':' :: ' ' :: c0, renMap es2 i ++ rest, ?_, ?_, ?_⟩
          · rw [renMap_cons_inline k v es2 i c0 hix, List.cons_append]
          · exact ⟨_, splitKey_inline c0 hkcol⟩
          · rw [hkd, List.cons_append]
            exact isDashLine_cons _ (isAlpha_ne a hka).1
        | none =>
          refine ⟨k.data ++ [':'], (renBlock v (i + 2) ++ renMap es2 i) ++ rest, ?_, ?_, ?_⟩
          · rw [renMap_cons_block k v es2 i hix, List.cons_append]
          · exact ⟨_, splitKey_block hkcol⟩
          · rw [hkd, List.cons_append]
            exact isDashLine_cons _ (isAlpha_ne a hka).1
      obtain ⟨pr, hpr⟩ := hkey
      rw [hlines] at hmap ⊢
      rw [parseBlock, if_pos rfl, if_neg (by rw [hnd]; simp), hpr, hmap]

theorem rtSeq (items : List PyObj) (i : Nat) (rest : List MLine) (fuel : Nat)
    (hp : plainList items = true)
    (hfuel : 2 * (renSeq items i).length + 1 ≤ fuel) (hstop : StopsAt i rest) :
    parseSeqItems fuel i (renSeq items i ++ rest) = some (items, rest) := by
  obtain ⟨fl, rfl⟩ : ∃ fl, fuel = fl + 1 := ⟨fuel - 1, by omega⟩
  cases items with
  | nil =>
    rw [renSeq, List.nil_append]
    exact parseSeqItems_stop fl i rest hstop
  | cons x xs =>
    rw [plainList, Bool.and_eq_true] at hp
    cases hix : inlineRen x with
    | some c0 =>
      rw [renSeq_cons_inline x xs i c0 hix] at hfuel ⊢
      rw [List.length_cons] at hfuel
      rw [List.cons_append]
      rw [parseSeqItems, if_pos ⟨rfl, by rw [isDashLine_dash]; simp⟩]
      rw [if_neg (by simp)]
      have hpi : parseInlineVal (('-' :: ' ' :: c0 : List Char).tail.tail) = some x := by
        simpa using parseInlineVal_ren hp.1 hix
      rw [hpi]
      rw [rtSeq xs i rest fl hp.2 (by omega) hstop]
    | none =>
      rw [renSeq_cons_block x xs i hix] at hfuel ⊢
      rw [List.length_cons, List.length_append] at hfuel
      rw [List.cons_append, List.append_assoc]
      rw [parseSeqItems, if_pos ⟨rfl, by decide⟩]
      have hb := rtBlock x (i + 2) (renSeq xs i ++ rest) fl hp.1 hix (by omega)
        (StopsAt_renSeq xs i hstop)
      have hrec := rtSeq xs i rest fl hp.2 (by omega) hstop
      simp only [List.tail_cons, eq_self_iff_true, if_true, hb, hrec]

theorem rtMap (es : List (String × PyObj)) (i : Nat) (rest : List MLine) (fuel : Nat)
    (hp : plainDict es = true)
    (hfuel : 2 * (renMap es i).length + 1 ≤ fuel) (hstop : StopsAt i rest) :
    parseMapEntries fuel i (renMap es i ++ rest) = some (es, rest) := by
  obtain ⟨fl, rfl⟩ : ∃ fl, fuel = fl + 1 := ⟨fuel - 1, by omega⟩
  cases es with
  | nil =>
    rw [renMap, List.nil_append]
    exact parseMapEntries_stop fl i rest hstop
  | cons e es2 =>
    obtain ⟨k, v⟩ := e
    rw [plainDict, Bool.and_eq_true, Bool.and_eq_true] at hp
    have hkcol : ∀ ch ∈ k.data, ch ≠ ':' := fun ch hch => (key_chars hp.1.1 ch hch).2
    cases hix : inlineRen v with
    | some c0 =>
      rw [renMap_cons_inline k v es2 i c0 hix] at hfuel ⊢
      rw [List.length_cons] at hfuel
      rw [List.cons_append]
      rw [parseMapEntries, if_pos rfl]
      rw [splitKey_inline c0 hkcol]
      have hv := parseInlineVal_ren hp.1.2 hix
      have hrec := rtMap es2 i rest fl hp.2 (by omega) hstop
      simp only [hv, hrec, String.mk_data]
    | none =>
      rw [renMap_cons_block k v es2 i hix] at hfuel ⊢
      rw [List.length_cons, List.length_append] at hfuel
      rw [List.cons_append, List.append_assoc]
      rw [parseMapEntries, if_pos rfl]
      rw [splitKey_block hkcol]
      have hb := rtBlock v (i + 2) (renMap es2 i ++ rest) fl hp.1.2 hix (by omega)
        (StopsAt_renMap es2 i hstop)
      have hrec := rtMap es2 i rest fl hp.2 (by omega) hstop
      simp only [hb, hrec, String.mk_data]

end

/-! ## From text back to the document -/

theorem docLines_linesOK (v : PyObj) (hp : plainDoc v = true) :
    ∀ p ∈ docLines v, lineOK p := by
  rw [docLines]
  cases hix : inlineRen v with
  | some c =>
    intro p hp2
    rw [List.mem_singleton] at hp2
    rw [hp2]
    exact lineOK_inline hp hix 0
  | none => exact renBlock_linesOK v 0 hp

theorem flattenLine_no_newline {p : MLine} (h : lineOK p) :
    ∀ ch ∈ flattenLine p, ch ≠ '\n' := by
  intro ch hch
  rw [flattenLine] at hch
  rcases List.mem_append.mp hch with hch | hch
  · rw [sp_all_space p.1 ch hch]
    decide
  · exact h.2 ch hch

theorem splitSpaces_flattenLine {p : MLine} (h : lineOK p) :
    splitSpaces (flattenLine p) = p := by
  obtain ⟨j, c⟩ := p
  rw [flattenLine]
  exact splitSpaces_sp j c (fun a ha => h.1 a ha)

/-- Measuring the dumped text of a plain document recovers exactly its
rendered lines plus the final empty line. -/
theorem measured_dump (v : PyObj) (hp : plainDoc v = true) :
    (splitLines (dumpChars v)).map splitSpaces = docLines v ++ [(0, [])] := by
  rw [dumpChars]
  rw [splitLines_joinChars (by
    intro l hl
    rw [List.mem_map] at hl
    obtain ⟨p, hpm, rfl⟩ := hl
    exact flattenLine_no_newline (docLines_linesOK v hp p hpm))]
  rw [List.map_append, List.map_map]
  congr 1
  · calc (docLines v).map (splitSpaces ∘ flattenLine)
        = (docLines v).map id := by
          apply List.map_congr_left
          intro p hpm
          exact splitSpaces_flattenLine (docLines_linesOK v hp p hpm)
      _ = docLines v := List.map_id _

theorem docParse_dump (v : PyObj) (hp : plainDoc v = true) :
    docParse ((splitLines (dumpChars v)).map splitSpaces) = some v := by
  rw [measured_dump v hp]
  have hstop : StopsAt 0 [((0 : Nat), ([] : List Char))] := by
    intro j c hh
    rw [List.head?_cons, Option.some_inj, Prod.mk.injEq] at hh
    exact Or.inr hh.2.symm
  have hpb : parseBlock (2 * (docLines v ++ [((0 : Nat), ([] : List Char))]).length + 2) 0
      (docLines v ++ [(0, [])]) = some (v, [(0, [])]) := by
    cases hix : inlineRen v with
    | none =>
      have hdl : docLines v = renBlock v 0 := by rw [docLines, hix]
      rw [hdl, List.length_append]
      exact rtBlock v 0 [(0, [])] _ hp hix (by omega) hstop
    | some c =>
      have hdl : docLines v = [(0, c)] := by rw [docLines, hix]
      rw [hdl, List.singleton_append, parseBlock, if_pos rfl]
      rw [if_neg (by rw [inlineRen_not_dash hp hix]; simp)]
      rw [splitKey_none (inlineRen_no_colon hp hix)]
      rw [parseInlineVal_ren hp hix]
  rw [docParse, hpb]
  simp

/-! ## Plain documents are safe -/

mutual

theorem plainDoc_safe (v : PyObj) (h : plainDoc v = true) : safeDoc v = true := by
  cases v with
  | str s => rfl
  | int n => rfl
  | bool b => rfl
  | null => rfl
  | list items =>
    rw [safeDoc]
    exact plainList_safe items (by rwa [plainDoc] at h)
  | dict es =>
    rw [safeDoc]
    exact plainDict_safe es (by rwa [plainDoc] at h)
  | obj o => exact absurd h (by rw [plainDoc]; simp)

theorem plainList_safe (items : List PyObj) (h : plainList items = true) :
    safeList items = true := by
  cases items with
  | nil => rfl
  | cons x xs =>
    rw [plainList, Bool.and_eq_true] at h
    rw [safeList, Bool.and_eq_true]
    exact ⟨plainDoc_safe x h.1, plainList_safe xs h.2⟩

theorem plainDict_safe (es : List (String × PyObj)) (h : plainDict es = true) :
    safeDict es = true := by
  cases es with
  | nil => rfl
  | cons e es2 =>
    obtain ⟨k, v⟩ := e
    rw [plainDict, Bool.and_eq_true, Bool.and_eq_true] at h
    rw [safeDict, Bool.and_eq_true]
    exact ⟨plainDoc_safe v h.1.2, plainDict_safe es2 h.2⟩

end

/-! ## Engine-level round trip -/

/-- The engine's serialized text of a safe document. -/
def yamlText (v : PyObj) : String := String.mk (dumpChars v)

theorem YAML.dumpText_safe (e : YAML) (v : PyObj) (kwargs : List (String × String))
    (h : safeDoc v = true) : YAML.dumpText e v kwargs = .ok (yamlText v) := by
  rw [YAML.dumpText, if_pos h, yamlText]

theorem YAML.load_yamlText (e : YAML) (v : PyObj) (hp : plainDoc v = true) :
    YAML.load e (yamlText v) = .ok v := by
  rw [YAML.load]
  rw [show (yamlText v).data = dumpChars v from rfl]
  rw [docParse_dump v hp]

/-! ## Block style: no flow-collection characters in solid documents -/

/-- No flow-collection opener anywhere in the text. -/
def noFlow (c : List Char) : Prop := ∀ ch ∈ c, ch ≠ '[' ∧ ch ≠ '{'

theorem noFlow_dec (l : List Char)
    (h : (l.all fun ch => !(ch == '[') && !(ch == '{')) = true) : noFlow l := by
  intro ch hch
  have hh := List.all_eq_true.mp h ch hch
  simp only [Bool.and_eq_true, Bool.not_eq_true', beq_eq_false_iff_ne] at hh
  exact hh

theorem inlineRen_noFlow {v : PyObj} {c : List Char} (hp : plainDoc v = true)
    (hs : solidDoc v = true) (hr : inlineRen v = some c) : noFlow c := by
  cases v with
  | str s =>
    rw [inlineRen, Option.some_inj] at hr
    obtain ⟨a, cs, hsd, ha, hcs, -⟩ := plainStr_spec (by rwa [plainDoc] at hp)
    intro ch hch
    rw [← hr, hsd] at hch
    rcases List.mem_cons.mp hch with rfl | hch
    · exact ⟨(isAlpha_ne ch ha).2.2.2.1, (isAlpha_ne ch ha).2.2.2.2.1⟩
    · have hc := List.all_eq_true.mp hcs ch hch
      exact ⟨(plainChar_ne ch hc).2.2.2.1, (plainChar_ne ch hc).2.2.2.2⟩
  | int n =>
    rw [inlineRen, Option.some_inj] at hr
    intro ch hch
    rw [← hr] at hch
    rcases intToChars_chars n ch hch with hd | rfl
    · exact ⟨(isDigit_ne ch hd).2.2.2.1, (isDigit_ne ch hd).2.2.2.2.1⟩
    · exact ⟨by decide, by decide⟩
  | bool b =>
    cases b with
    | true =>
      rw [inlineRen, Option.some_inj] at hr
      rw [← hr]
      exact noFlow_dec _ (by decide)
    | false =>
      rw [inlineRen, Option.some_inj] at hr
      rw [← hr]
      exact noFlow_dec _ (by decide)
  | null =>
    rw [inlineRen, Option.some_inj] at hr
    rw [← hr]
    exact noFlow_dec _ (by decide)
  | list items =>
    cases items with
    | nil => exact absurd hs (by decide)
    | cons x xs => exact absurd hr (by rw [inlineRen]; simp)
  | dict es =>
    cases es with
    | nil => exact absurd hs (by decide)
    | cons e es => exact absurd hr (by rw [inlineRen]; simp)
  | obj o => exact absurd hr (by rw [inlineRen]; simp)

theorem key_noFlow {k : String} (hk : plainStr k = true) : noFlow k.data := by
  obtain ⟨a, cs, hs, ha, hcs, -⟩ := plainStr_spec hk
  intro ch hch
  rw [hs] at hch
  rcases List.mem_cons.mp hch with rfl | hch
  · exact ⟨(isAlpha_ne ch ha).2.2.2.1, (isAlpha_ne ch ha).2.2.2.2.1⟩
  · have hc := List.all_eq_true.mp hcs ch hch
    exact ⟨(plainChar_ne ch hc).2.2.2.1, (plainChar_ne ch hc).2.2.2.2⟩

mutual

theorem renBlock_noFlow (v : PyObj) (i : Nat) (hp : plainDoc v = true)
    (hs : solidDoc v = true) : ∀ p ∈ renBlock v i, noFlow p.2 := by
  cases v with
  | list items =>
    cases items with
    | nil => exact absurd hs (by decide)
    | cons x xs =>
      rw [renBlock]
      exact renSeq_noFlow (x :: xs) i hp hs
  | dict es =>
    cases es with
    | nil => exact absurd hs (by decide)
    | cons e es2 =>
      rw [renBlock]
      exact renMap_noFlow (e :: es2) i hp hs
  | str s =>
    intro p hp2
    simp only [renBlock, List.mem_singleton] at hp2
    rw [hp2]
    exact inlineRen_noFlow hp hs rfl
  | int n =>
    intro p hp2
    simp only [renBlock, List.mem_singleton] at hp2
    rw [hp2]
    exact inlineRen_noFlow hp hs rfl
  | bool b =>
    intro p hp2
    simp only [renBlock, List.mem_singleton] at hp2
    rw [hp2]
    cases b <;> exact inlineRen_noFlow hp hs rfl
  | null =>
    intro p hp2
    simp only [renBlock, List.mem_singleton] at hp2
    rw [hp2]
    exact inlineRen_noFlow hp hs rfl
  | obj o => exact absurd hp (by rw [plainDoc]; simp)

theorem renSeq_noFlow (items : List PyObj) (i : Nat) (hp : plainList items = true)
    (hs : solidList items = true) : ∀ p ∈ renSeq items i, noFlow p.2 := by
  cases items with
  | nil => intro p hp2; rw [renSeq] at hp2; simp at hp2
  | cons x xs =>
    rw [plainList, Bool.and_eq_true] at hp
    rw [solidList, Bool.and_eq_true] at hs
    intro p hp2
    rw [renSeq, List.mem_append] at hp2
    rcases hp2 with hp2 | hp2
    · cases hix : inlineRen x with
      | some c =>
        rw [hix, List.mem_singleton] at hp2
        rw [hp2]
        intro ch hch
        rcases List.mem_cons.mp hch with rfl | hch
        · exact ⟨by decide, by decide⟩
        · rcases List.mem_cons.mp hch with rfl | hch
          · exact ⟨by decide, by decide⟩
          · exact inlineRen_noFlow hp.1 hs.1 hix ch hch
      | none =>
        rw [hix, List.mem_cons] at hp2
        rcases hp2 with rfl | hp2
        · intro ch hch
          rcases List.mem_cons.mp hch with rfl | hch
          · exact ⟨by decide, by decide⟩
          · simp at hch
        · exact renBlock_noFlow x (i + 2) hp.1 hs.1 p hp2
    · exact renSeq_noFlow xs i hp.2 hs.2 p hp2

theorem renMap_noFlow (es : List (String × PyObj)) (i : Nat) (hp : plainDict es = true)
    (hs : solidDict es = true) : ∀ p ∈ renMap es i, noFlow p.2 := by
  cases es with
  | nil => intro p hp2; rw [renMap] at hp2; simp at hp2
  | cons e es2 =>
    obtain ⟨k, v⟩ := e
    rw [plainDict, Bool.and_eq_true, Bool.and_eq_true] at hp
    rw [solidDict, Bool.and_eq_true] at hs
    intro p hp2
    rw [renMap, List.mem_append] at hp2
    rcases hp2 with hp2 | hp2
    · cases hix : inlineRen v with
      | some c =>
        rw [hix, List.mem_singleton] at hp2
        rw [hp2]
        intro ch hch
        rcases List.mem_append.mp hch with hch | hch
        · exact key_noFlow hp.1.1 ch hch
        · rcases List.mem_cons.mp hch with rfl | hch
          · exact ⟨by decide, by decide⟩
          · rcases List.mem_cons.mp hch with rfl | hch
            · exact ⟨by decide, by decide⟩
            · exact inlineRen_noFlow hp.1.2 hs.1 hix ch hch
      | none =>
        rw [hix, List.mem_cons] at hp2
        rcases hp2 with rfl | hp2
        · intro ch hch
          rcases List.mem_append.mp hch with hch | hch
          · exact key_noFlow hp.1.1 ch hch
          · rcases List.mem_cons.mp hch with rfl | hch
            · exact ⟨by decide, by decide⟩
            · simp at hch
        · exact renBlock_noFlow v (i + 2) hp.1.2 hs.1 p hp2
    · exact renMap_noFlow es2 i hp.2 hs.2 p hp2

end

theorem joinChars_mem {ls : List (List Char)} {ch : Char} (h : ch ∈ joinChars ls) :
    (∃ l ∈ ls, ch ∈ l) ∨ ch = '\n' := by
  induction ls with
  | nil => rw [joinChars] at h; simp at h
  | cons l t ih =>
    rw [joinChars, List.foldr_cons] at h
    rcases List.mem_append.mp h with h | h
    · exact Or.inl ⟨l, List.mem_cons_self l t, h⟩
    · rcases List.mem_cons.mp h with rfl | h
      · exact Or.inr rfl
      · rw [joinChars] at ih
        rcases ih h with ⟨m, hm, hchm⟩ | h
        · exact Or.inl ⟨m, List.mem_cons_of_mem l hm, hchm⟩
        · exact Or.inr h

/-- A plain document with no empty collections dumps to text with no flow
collection characters at all: pure block style. -/
theorem dumpChars_noFlow (v : PyObj) (hp : plainDoc v = true) (hs : solidDoc v = true) :
    noFlow (dumpChars v) := by
  intro ch hch
  rw [dumpChars] at hch
  rcases joinChars_mem hch with ⟨l, hl, hchl⟩ | rfl
  · rw [List.mem_map] at hl
    obtain ⟨p, hpm, rfl⟩ := hl
    rw [flattenLine] at hchl
    rcases List.mem_append.mp hchl with hchl | hchl
    · rw [sp_all_space p.1 ch hchl]
      exact ⟨by decide, by decide⟩
    · rw [docLines] at hpm
      cases hix : inlineRen v with
      | some c =>
        rw [hix, List.mem_singleton] at hpm
        rw [hpm] at hchl
        exact inlineRen_noFlow hp hs hix ch hchl
      | none =>
        rw [hix] at hpm
        exact renBlock_noFlow v 0 hp hs p hpm ch hchl
  · exact ⟨by decide, by decide⟩

/-! ## The claims -/

theorem emptyAppend (t : String) : "" ++ t = t := by
  cases t
  rfl

/-- The string a `dump` call returned, if any. -/
def retText : Except YamlError (Option String × String) → Option String
  | .ok (t, _) => t
  | .error _ => none

/-- C1: for every document D composed only of plain scalars, sequences and
mappings, `load(dump(D)) == D` — dumping with no destination and no
overrides yields text that loads back to a value equal to D, keys in order
and values preserved. -/
theorem claim_C1_round_trip (D : PyObj) (h : plainDoc D = true) :
    ∃ t : String, YAMLHandler.dump D none "" [] = .ok (some t, "") ∧
      YAMLHandler.load t = .ok D := by
  refine ⟨yamlText D, ?_, ?_⟩
  · show YAMLHandler._dump_and_return_value D "" [] = _
    rw [YAMLHandler._dump_and_return_value,
      YAML.dumpText_safe YAMLHandler._handler D [] (plainDoc_safe D h)]
  · rw [YAMLHandler.load]
    exact YAML.load_yamlText YAMLHandler._handler D h

theorem claim_C1_round_trip_witness :
    ∃ t : String,
      YAMLHandler.dump (.dict [("a", .int 1), ("b", .str "x")]) none "" [] =
        .ok (some t, "") ∧
      YAMLHandler.load t = .ok (.dict [("a", .int 1), ("b", .str "x")]) :=
  claim_C1_round_trip (.dict [("a", .int 1), ("b", .str "x")]) (by decide)

/-- C2: for a mapping in the safe subset and a caller-supplied (truthy)
destination stream starting empty, `dump(D, destination=stream)` returns no
value and leaves the stream's content equal to the text `dump(D)` returns. -/
theorem claim_C2_destination (D : PyObj) (s : PyStream) (kwargs : List (String × String))
    (hs : s.truthy = true) (hD : safeDoc D = true) :
    ∃ t : String, YAMLHandler.dump D none "" kwargs = .ok (some t, "") ∧
      YAMLHandler.dump D (some s) "" kwargs = .ok (none, t) := by
  refine ⟨yamlText D, ?_, ?_⟩
  · show YAMLHandler._dump_and_return_value D "" kwargs = _
    rw [YAMLHandler._dump_and_return_value,
      YAML.dumpText_safe YAMLHandler._handler D kwargs hD]
  · have h1 := YAML.dumpText_safe YAMLHandler._handler D kwargs hD
    rw [YAMLHandler.dump, if_pos hs, YAMLHandler._dump, YAML.dump]
    simp only [h1, emptyAppend]

theorem claim_C2_destination_witness :
    ∃ t : String,
      YAMLHandler.dump (.dict [("a", .int 1)]) none "" [] = .ok (some t, "") ∧
      YAMLHandler.dump (.dict [("a", .int 1)]) (some .stringBuffer) "" [] = .ok (none, t) :=
  claim_C2_destination (.dict [("a", .int 1)]) .stringBuffer [] rfl (by decide)

/-- C3: with no destination, `dump` allocates a fresh in-memory text buffer
(`_dump_and_return_value`'s `io.StringIO()`), serializes into it, and
returns the buffer's full content; the caller's own stream state is
untouched. -/
theorem claim_C3_string_buffer (D : PyObj) (σ : String) (kwargs : List (String × String))
    (hD : safeDoc D = true) :
    YAMLHandler.dump D none σ kwargs = YAMLHandler._dump_and_return_value D σ kwargs ∧
    YAMLHandler._dump_and_return_value D σ kwargs = .ok (some (yamlText D), σ) := by
  refine ⟨rfl, ?_⟩
  rw [YAMLHandler._dump_and_return_value,
    YAML.dumpText_safe YAMLHandler._handler D kwargs hD]

theorem claim_C3_string_buffer_witness :
    YAMLHandler.dump (.dict [("a", .int 1)]) none "s" [] =
      YAMLHandler._dump_and_return_value (.dict [("a", .int 1)]) "s" [] ∧
    YAMLHandler._dump_and_return_value (.dict [("a", .int 1)]) "s" [] =
      .ok (some (yamlText (.dict [("a", .int 1)])), "s") :=
  claim_C3_string_buffer (.dict [("a", .int 1)]) "s" [] (by decide)

/-- C4: two calls of `dump(D)` with no destination and no formatting
overrides return byte-identical text, whatever other state differs between
the calls: the returned text is a function of D and the fixed engine
configuration alone. -/
theorem claim_C4_deterministic (D : PyObj) (σ1 σ2 : String) :
    retText (YAMLHandler.dump D none σ1 []) = retText (YAMLHandler.dump D none σ2 []) := by
  show retText (YAMLHandler._dump_and_return_value D σ1 []) =
    retText (YAMLHandler._dump_and_return_value D σ2 [])
  cases h : YAML.dumpText YAMLHandler._handler D [] with
  | ok t =>
    simp only [YAMLHandler._dump_and_return_value, h]
    rfl
  | error e => simp only [YAMLHandler._dump_and_return_value, h]

/-- C5: `load` delegates to the engine unchanged — it catches and
translates nothing — and malformed YAML fails with the ParseError-kind
condition rather than producing any partial mapping; in particular
`load("key: [unterminated")` fails. -/
theorem claim_C5_parse_error :
    (∀ s : String, YAMLHandler.load s = YAML.load YAMLHandler._handler s) ∧
    YAMLHandler.load "key: [unterminated" = .error .parseError := by
  exact ⟨fun s => rfl, rfl⟩

/-- C6: a value outside the safe subset (an opaque object anywhere inside)
makes `dump` fail with the SerializationError-kind condition, propagated
unmodified whatever destination was supplied — never a silent coercion to
text. -/
theorem claim_C6_serialization_error (D : PyObj) (stream : Option PyStream) (σ : String)
    (kwargs : List (String × String)) (h : safeDoc D = false) :
    YAMLHandler.dump D stream σ kwargs = .error .serializationError := by
  have hd : YAML.dumpText YAMLHandler._handler D kwargs = .error .serializationError := by
    rw [YAML.dumpText, if_neg (by simp [h])]
  cases stream with
  | none =>
    show YAMLHandler._dump_and_return_value D σ kwargs = _
    rw [YAMLHandler._dump_and_return_value, hd]
  | some s =>
    rw [YAMLHandler.dump]
    by_cases hs : s.truthy = true
    · rw [if_pos hs, YAMLHandler._dump, YAML.dump, hd]
    · rw [if_neg hs, YAMLHandler._dump_and_return_value, hd]

theorem claim_C6_serialization_error_witness :
    YAMLHandler.dump (.obj "object_with_no_safe_representation") (some .stringBuffer) "" [] =
      .error .serializationError :=
  claim_C6_serialization_error (.obj "object_with_no_safe_representation")
    (some .stringBuffer) "" [] (by decide)

/-- C7: dump output is block style under the fixed indentation settings:
`dump({"a": [1, 2]})` renders the nested list on indented lines (dash 2
columns in, item content 4 columns in), and for every plain document with
no empty collections the dumped text holds no flow-collection opener at
all — never inline `[...]`/`{...}`. -/
theorem claim_C7_block_style :
    YAMLHandler.dump (.dict [("a", .list [.int 1, .int 2])]) none "" [] =
      .ok (some "a:\n  - 1\n  - 2\n", "") ∧
    ∀ (D : PyObj) (t : String), plainDoc D = true → solidDoc D = true →
      YAMLHandler.dump D none "" [] = .ok (some t, "") →
      ∀ ch ∈ t.data, ch ≠ '[' ∧ ch ≠ '{' := by
  constructor
  · rfl
  · intro D t hp hs hd
    have hsafe := plainDoc_safe D hp
    have h3 : YAMLHandler.dump D none "" [] = .ok (some (yamlText D), "") := by
      show YAMLHandler._dump_and_return_value D "" [] = _
      rw [YAMLHandler._dump_and_return_value,
        YAML.dumpText_safe YAMLHandler._handler D [] hsafe]
    rw [h3, Except.ok.injEq, Prod.mk.injEq, Option.some.injEq] at hd
    rw [← hd.1]
    exact fun ch hch => dumpChars_noFlow D hp hs ch hch

/-- C8: the engine settings are the construction-time configuration — safe
mode, mapping indent 2, sequence indent 4 with offset 2, flow style off —
and no sequence of facade calls (`load`, or `dump` with any per-call
keyword arguments) changes them. -/
theorem claim_C8_fixed_config :
    YAMLHandler._handler = ⟨"safe", 2, 4, 2, false⟩ ∧
    ∀ calls : List FacadeCall,
      calls.foldl engineAfter YAMLHandler._handler = YAMLHandler._handler := by
  refine ⟨rfl, ?_⟩
  intro calls
  induction calls with
  | nil => rfl
  | cons c t ih => rw [List.foldl_cons, engineAfter, ih]

/-- C9: `dump` dispatches on the Python truthiness of the destination
argument, not on whether one was supplied: a supplied but falsy destination
is ignored — the call behaves exactly like a destination-less call,
allocating its own buffer, returning the text, and leaving the supplied
object's content alone. -/
theorem claim_C9_falsy_destination (D : PyObj) (s : PyStream) (σ : String)
    (kwargs : List (String × String)) (h : s.truthy = false) :
    YAMLHandler.dump D (some s) σ kwargs = YAMLHandler.dump D none σ kwargs ∧
    (safeDoc D = true →
      YAMLHandler.dump D (some s) σ kwargs = .ok (some (yamlText D), σ)) := by
  constructor
  · rw [YAMLHandler.dump, if_neg (by simp [h])]
    rfl
  · intro hsafe
    rw [YAMLHandler.dump, if_neg (by simp [h]), YAMLHandler._dump_and_return_value,
      YAML.dumpText_safe YAMLHandler._handler D kwargs hsafe]

theorem claim_C9_falsy_destination_witness :
    YAMLHandler.dump (.dict [("a", .int 1)]) (some (.other false)) "s" [] =
      YAMLHandler.dump (.dict [("a", .int 1)]) none "s" [] :=
  (claim_C9_falsy_destination (.dict [("a", .int 1)]) (.other false) "s" [] rfl).1

/-- C10: `load` returns whatever the engine produced without checking that
it is a mapping: the empty document yields null, a scalar document yields
that scalar, a sequence document yields a list — all non-mapping values
despite the declared `dict` result type. -/
theorem claim_C10_load_unchecked :
    (YAMLHandler.load "" = .ok .null ∧ PyObj.null.isDict = false) ∧
    (YAMLHandler.load "hello" = .ok (.str "hello") ∧ (PyObj.str "hello").isDict = false) ∧
    (YAMLHandler.load "- 1\n" = .ok (.list [.int 1]) ∧
      (PyObj.list [.int 1]).isDict = false) :=
  ⟨⟨rfl, rfl⟩, ⟨rfl, rfl⟩, ⟨rfl, rfl⟩⟩
